import Mathlib

/-
Verification development for the sitemap domain-extractor repository
(src/app.py: deep crawler; src/streamlit_app.py: fast crawler).

The Python code is shallowly embedded: pure string manipulation is
translated to executable Lean functions over `List Char`/`String`,
the relevant fragment of `urllib.parse` (`urlparse`, `urljoin`) is
modelled after CPython's implementation, XML elements become an
explicit tree structure, and all network / gzip / XML-parsing effects
are passed in as oracle functions, with Python exceptions collapsed
to `Option` failures exactly where the source catches them.
-/

namespace SitemapExtractor

/-! ## String helpers: models of the Python `str` methods the code uses -/

/-- Model of Python `s.startswith(pat)` over character lists. -/
def startsWithL : List Char → List Char → Bool
  | _, [] => true
  | [], _ :: _ => false
  | c :: cs, p :: ps => c = p && startsWithL cs ps

/-- Model of Python `s.endswith(pat)`. -/
def endsWithL (s pat : List Char) : Bool := startsWithL s.reverse pat.reverse

/-- Model of Python substring containment `pat in s`. -/
def containsL (pat : List Char) : List Char → Bool
  | [] => pat.isEmpty
  | c :: cs => startsWithL (c :: cs) pat || containsL pat cs

/-- Model of Python `s.split(c, 1)`: `none` when `c` does not occur, otherwise
the parts before and after the first occurrence of `c`. -/
def splitFirst (c : Char) : List Char → Option (List Char × List Char)
  | [] => none
  | d :: ds =>
    if d = c then some ([], ds)
    else
      match splitFirst c ds with
      | none => none
      | some (a, b) => some (d :: a, b)

/-- Model of Python `s.split(c)`: all parts, empty parts kept. -/
def splitAllOn (c : Char) : List Char → List (List Char)
  | [] => [[]]
  | d :: ds =>
    if d = c then [] :: splitAllOn c ds
    else
      match splitAllOn c ds with
      | [] => [[d]]
      | g :: gs => (d :: g) :: gs

/-- Cut a list at the first character belonging to `stops`; returns the clean
prefix and the remainder starting at the stop character (CPython
`_splitnetloc`). -/
def takeUntil (stops : List Char) : List Char → List Char × List Char
  | [] => ([], [])
  | c :: cs =>
    if c ∈ stops then ([], c :: cs)
    else
      match takeUntil stops cs with
      | (a, b) => (c :: a, b)

/-- Characters removed by Python `str.strip()` (ASCII fragment). -/
def isPyWs (c : Char) : Bool :=
  c = ' ' || c = '\t' || c = '\n' || c = '\r' || c = '\x0b' || c = '\x0c'

/-- Model of Python `s.strip()`. -/
def stripL (s : List Char) : List Char :=
  ((s.dropWhile isPyWs).reverse.dropWhile isPyWs).reverse

/-- Model of Python `s.lower()` (ASCII fragment, as in `Char.toLower`). -/
def lowerL (s : List Char) : List Char := s.map Char.toLower

def startsWithStr (s pat : String) : Bool := startsWithL s.toList pat.toList

def endsWithStr (s pat : String) : Bool := endsWithL s.toList pat.toList

def containsStr (s pat : String) : Bool := containsL pat.toList s.toList

def stripStr (s : String) : String := String.mk (stripL s.toList)

def lowerStr (s : String) : String := String.mk (lowerL s.toList)

/-- Helper for `splitlinesL`: splits at `\r\n`, `\r` and `\n`, always keeping a
final (possibly empty) segment. -/
def splitlinesAux : List Char → List (List Char)
  | [] => [[]]
  | '\r' :: '\n' :: cs => [] :: splitlinesAux cs
  | '\r' :: cs => [] :: splitlinesAux cs
  | '\n' :: cs => [] :: splitlinesAux cs
  | c :: cs =>
    match splitlinesAux cs with
    | [] => [[c]]
    | l :: ls => (c :: l) :: ls

/-- Model of Python `s.splitlines()` restricted to the `\n`, `\r`, `\r\n`
line breaks: a trailing line break produces no trailing empty line. -/
def splitlinesL (s : List Char) : List (List Char) :=
  match s with
  | [] => []
  | _ =>
    let ls := splitlinesAux s
    if ls.getLast? = some [] then ls.dropLast else ls

def splitlinesStr (s : String) : List String := (splitlinesL s.toList).map String.mk

/-! ## Model of the fragment of `urllib.parse` the code uses -/

/-- Scheme characters accepted by CPython `urllib.parse`. -/
def schemeChars : List Char :=
  "abcdefghijklmnopqrstuvwxyzABCDEFGHIJKLMNOPQRSTUVWXYZ0123456789+-.".toList

/-- Sanitation CPython `urlsplit` performs first: strip leading
C0-control/space characters, then remove tab, CR and LF everywhere. -/
def sanitizeUrl (s : List Char) : List Char :=
  (s.dropWhile (fun c => c.toNat ≤ 32)).filter (fun c => c ≠ '\t' && c ≠ '\r' && c ≠ '\n')

/-- Result record of `urllib.parse.urlparse`. -/
structure ParseResult where
  scheme : String
  netloc : String
  path : String
  params : String
  query : String
  fragment : String
deriving DecidableEq

/-- Model of CPython `urlsplit` with a default scheme (bracketed-host
validation omitted): scheme is split off at the first colon when the prefix
is a well-formed scheme, the netloc follows a leading `//` up to the first
`/`, `?` or `#`, then the fragment and the query are split off. The
`params` field stays empty here and is filled in by `urlparseD`. -/
def urlsplitD (defaultScheme : String) (url : String) : ParseResult :=
  let cs := sanitizeUrl url.toList
  let p1 : String × List Char :=
    match splitFirst ':' cs with
    | some (b :: bs, rest) =>
      if b.isAlpha && (b :: bs).all (fun c => decide (c ∈ schemeChars)) then
        (String.mk (lowerL (b :: bs)), rest)
      else (defaultScheme, cs)
    | _ => (defaultScheme, cs)
  let p2 : String × List Char :=
    if startsWithL p1.2 ['/', '/'] then
      let nl := takeUntil ['/', '?', '#'] (p1.2.drop 2)
      (String.mk nl.1, nl.2)
    else ("", p1.2)
  let p3 : List Char × String :=
    match splitFirst '#' p2.2 with
    | some (a, b) => (a, String.mk b)
    | none => (p2.2, "")
  let p4 : List Char × String :=
    match splitFirst '?' p3.1 with
    | some (a, b) => (a, String.mk b)
    | none => (p3.1, "")
  ⟨p1.1, p2.1, String.mk p4.1, "", p4.2, p3.2⟩

/-- Model of CPython `_splitparams`: split the params off the last path
segment at its first `;`. -/
def splitparams (u : List Char) : List Char × List Char :=
  if '/' ∈ u then
    let segs := splitAllOn '/' u
    match splitFirst ';' (segs.getLastD []) with
    | none => (u, [])
    | some (a, b) => (List.intercalate ['/'] segs.dropLast ++ '/' :: a, b)
  else
    match splitFirst ';' u with
    | none => (u, [])
    | some (a, b) => (a, b)

/-- Model of CPython `urlparse` with a default scheme. -/
def urlparseD (defaultScheme : String) (url : String) : ParseResult :=
  let s := urlsplitD defaultScheme url
  if ';' ∈ s.path.toList then
    let pp := splitparams s.path.toList
    { s with path := String.mk pp.1, params := String.mk pp.2 }
  else s

/-- Model of `urllib.parse.urlparse` as the code calls it. -/
def urlparse (url : String) : ParseResult := urlparseD "" url

/-- Model of CPython `urlunsplit` on five components. -/
def urlunsplit (scheme netloc path query fragment : String) : String :=
  let url := path
  let url :=
    if netloc ≠ "" || startsWithStr url "//" then
      let u2 := if url ≠ "" && !startsWithStr url "/" then "/" ++ url else url
      "//" ++ netloc ++ u2
    else url
  let url := if scheme ≠ "" then scheme ++ ":" ++ url else url
  let url := if query ≠ "" then url ++ "?" ++ query else url
  if fragment ≠ "" then url ++ "#" ++ fragment else url

/-- Model of CPython `urlunparse`. -/
def urlunparse (p : ParseResult) : String :=
  let path := if p.params ≠ "" then p.path ++ ";" ++ p.params else p.path
  urlunsplit p.scheme p.netloc path p.query p.fragment

/-- CPython `uses_relative`. -/
def usesRelative : List String :=
  ["", "ftp", "http", "gopher", "nntp", "imap", "wais", "file", "https", "shttp",
   "mms", "prospero", "rtsp", "rtspu", "sftp", "svn", "svn+ssh", "ws", "wss"]

/-- CPython `uses_netloc`. -/
def usesNetloc : List String :=
  ["", "ftp", "http", "gopher", "nntp", "telnet", "imap", "wais", "file", "mms",
   "https", "shttp", "snews", "prospero", "rtsp", "rtspu", "rsync", "svn",
   "svn+ssh", "sftp", "nfs", "git", "git+ssh", "ws", "wss"]

/-- Middle-segment cleanup of CPython `urljoin`: drop empty segments strictly
between the first and the last one. -/
def filterMiddle : List (List Char) → List (List Char)
  | [] => []
  | [x] => [x]
  | x :: xs => x :: (xs.dropLast.filter (fun s => s ≠ []) ++ [xs.getLastD []])

/-- Dot-segment resolution loop of CPython `urljoin`; `..` pops (popping an
empty stack is a no-op) and `.` is skipped. -/
def resolveSegs (segs : List (List Char)) : List (List Char) :=
  segs.foldl
    (fun acc seg =>
      if seg = ['.', '.'] then acc.dropLast
      else if seg = ['.'] then acc
      else acc ++ [seg]) []

/-- Model of CPython `urljoin`. -/
def urljoin (base url : String) : String :=
  if base = "" then url
  else if url = "" then base
  else
    let b := urlparseD "" base
    let u := urlparseD b.scheme url
    if u.scheme ≠ b.scheme || u.scheme ∉ usesRelative then url
    else
      let step1 : String × Option String :=
        if u.scheme ∈ usesNetloc then
          if u.netloc ≠ "" then ("", some (urlunparse u)) else (b.netloc, none)
        else (u.netloc, none)
      match step1.2 with
      | some r => r
      | none =>
        let netloc := step1.1
        if u.path = "" && u.params = "" then
          let query := if u.query = "" then b.query else u.query
          urlunparse ⟨u.scheme, netloc, b.path, b.params, query, u.fragment⟩
        else
          let baseParts0 := splitAllOn '/' b.path.toList
          let baseParts :=
            if baseParts0.getLastD [] ≠ [] then baseParts0.dropLast else baseParts0
          let segments :=
            if startsWithStr u.path "/" then splitAllOn '/' u.path.toList
            else filterMiddle (baseParts ++ splitAllOn '/' u.path.toList)
          let resolved := resolveSegs segments
          let resolved :=
            if segments.getLastD [] = ['.', '.'] || segments.getLastD [] = ['.'] then
              resolved ++ [[]]
            else resolved
          let joined := List.intercalate ['/'] resolved
          let path := if joined = [] then "/" else String.mk joined
          urlunparse ⟨u.scheme, netloc, path, u.params, u.query, u.fragment⟩

/-! ## XML element model and tag extraction -/

/-- Shallow model of an `xml.etree.ElementTree` element: a tag, optional
text, and the list of child elements (iteration over an element yields its
children). -/
structure XmlElem where
  tag : String
  text : Option String
  children : List XmlElem

/-- Model of the namespace strip `child.tag.split(chr 125)[-1]` both crawlers
perform (take the part after the closing brace of a namespace marker). -/
def localName (tag : String) : String :=
  String.mk ((splitAllOn '\x7d' tag.toList).getLastD [])

/-- Model of the inner loop of both crawlers that scans the children of an
entry for its first sub-element with local name `loc` (app.py lines 102-106):
the scan stops at the first such child; its text gives `some (text.strip())`
when the text is truthy and `none` otherwise. -/
def findLoc : List XmlElem → Option String
  | [] => none
  | sub :: rest =>
    if localName sub.tag = "loc" then
      match sub.text with
      | some t => if t = "" then none else some (stripStr t)
      | none => none
    else findLoc rest

/-- Value of the `loc` variable combined with the falsiness guard
`if not loc: continue` (app.py lines 108-109): an entry is kept only when a
`loc` child exists and its stripped text is non-empty. -/
def truthyLoc (child : XmlElem) : Option String :=
  match findLoc child.children with
  | none => none
  | some s => if s = "" then none else some s

/-! ## The two classification predicates -/

/-- app.py `is_sitemap_url`: the heuristic deciding that a URL found in a
`url` entry is actually another sitemap. -/
def is_sitemap_url (url : String) : Bool :=
  let u := lowerStr url
  endsWithStr u ".xml" || endsWithStr u ".xml.gz" || containsStr u "sitemap"

/-- streamlit_app.py `is_homepage`: a URL is a root homepage when its parsed
path is empty or exactly a single slash. -/
def is_homepage (url : String) : Bool :=
  let path := (urlparse url).path
  path = "" || path = "/"

/-! ## Crawl state and the two traversal policies -/

/-- Model of Python `set.add`: sets are modelled as duplicate-free lists in
insertion order (the final output is sorted, so only membership matters). -/
def insertSet (x : String) (l : List String) : List String :=
  if x ∈ l then l else l ++ [x]

/-- Domain extraction `urlparse(loc).netloc` guarded by `if domain:`
(app.py lines 124-129). -/
def addDomain (loc : String) (domains : List String) : List String :=
  let domain := (urlparse loc).netloc
  if domain ≠ "" then insertSet domain domains else domains

/-- State of one traversal run. `fetched` is a ghost log recording each URL
passed to `fetch_and_parse`, in order; it never influences the traversal and
exists only to state the no-refetch property. -/
structure CrawlState where
  queue : List String
  visited : List String
  domains : List String
  fetched : List String
deriving DecidableEq

/-- A per-child policy: given the visited set and the accumulated
(queue suffix, domain set) pair, process one child element. -/
abbrev ChildFn := List String → List String × List String → XmlElem → List String × List String

/-- Child handling of the deep crawler (app.py lines 97-129): `sitemap`
entries are enqueued when unvisited; `url` entries whose loc looks like a
sitemap are enqueued when unvisited, other `url` entries contribute their
netloc; other tags are ignored. -/
def crawlChildDeep : ChildFn := fun visited acc child =>
  let tag := localName child.tag
  match truthyLoc child with
  | none => acc
  | some loc =>
    if tag = "sitemap" then
      if loc ∉ visited then (acc.1 ++ [loc], acc.2) else acc
    else if tag = "url" then
      if is_sitemap_url loc then
        if loc ∉ visited then (acc.1 ++ [loc], acc.2) else acc
      else (acc.1, addDomain loc acc.2)
    else acc

/-- Child handling of the fast crawler (streamlit_app.py lines 100-129):
`sitemap` entries are enqueued when unvisited; `url` entries contribute their
netloc only when they are homepages and are never enqueued. -/
def crawlChildFast : ChildFn := fun visited acc child =>
  let tag := localName child.tag
  match truthyLoc child with
  | none => acc
  | some loc =>
    if tag = "sitemap" then
      if loc ∉ visited then (acc.1 ++ [loc], acc.2) else acc
    else if tag = "url" then
      if is_homepage loc then (acc.1, addDomain loc acc.2) else acc
    else acc

/-- One iteration of the `while queue:` loop, parameterized by the per-child
policy and by the outcome `net` of `fetch_and_parse` on each URL: dequeue,
discard if visited, otherwise mark visited, fetch, and on success fold the
policy over the children of the document root. -/
def crawlStep (childFn : ChildFn) (net : String → Option XmlElem) (st : CrawlState) :
    CrawlState :=
  match st.queue with
  | [] => st
  | current :: rest =>
    if current ∈ st.visited then { st with queue := rest }
    else
      let visited := st.visited ++ [current]
      let fetched := st.fetched ++ [current]
      match net current with
      | none => { queue := rest, visited := visited, domains := st.domains, fetched := fetched }
      | some root =>
        let qd := root.children.foldl (childFn visited) (rest, st.domains)
        { queue := qd.1, visited := visited, domains := qd.2, fetched := fetched }

/-- Fuel-indexed iteration of `crawlStep` until the queue empties. -/
def crawlLoop (childFn : ChildFn) (net : String → Option XmlElem) :
    Nat → CrawlState → CrawlState
  | 0, st => st
  | fuel + 1, st =>
    match st.queue with
    | [] => st
    | _ :: _ => crawlLoop childFn net fuel (crawlStep childFn net st)

/-- Initial traversal state for a seed list. -/
def initState (seeds : List String) : CrawlState := ⟨seeds, [], [], []⟩

/-- Code-point lexicographic comparison, the order Python uses to compare
strings. -/
def ltCharList : List Char → List Char → Bool
  | [], [] => false
  | [], _ :: _ => true
  | _ :: _, [] => false
  | a :: as, b :: bs => if a = b then ltCharList as bs else decide (a.toNat < b.toNat)

/-- Insertion step of the sort. -/
def insortStr (x : String) : List String → List String
  | [] => [x]
  | y :: ys => if ltCharList y.toList x.toList then y :: insortStr x ys else x :: y :: ys

/-- Model of Python `sorted` on a list of strings. -/
def sortStrings : List String → List String
  | [] => []
  | x :: xs => insortStr x (sortStrings xs)

/-- app.py `crawler`: run the deep traversal from the seed list; returns
`some` of the sorted domain list when the queue empties within `fuel`
iterations (the Python loop runs unboundedly; the fuel only indexes the
approximation). -/
def crawler (net : String → Option XmlElem) (fuel : Nat) (start_sitemaps : List String) :
    Option (List String) :=
  let final := crawlLoop crawlChildDeep net fuel (initState start_sitemaps)
  if final.queue = [] then some (sortStrings final.domains) else none

/-- streamlit_app.py `fast_crawler`, analogously. -/
def fast_crawler (net : String → Option XmlElem) (fuel : Nat) (start_sitemaps : List String) :
    Option (List String) :=
  let final := crawlLoop crawlChildFast net fuel (initState start_sitemaps)
  if final.queue = [] then some (sortStrings final.domains) else none

/-! ## Fetcher and entry resolver -/

/-- Model of a `requests` response: status code, raw body bytes, decoded
body text, and the optional `Content-Type` header. -/
structure HttpResponse where
  status_code : Nat
  content : List Nat
  text : String
  contentType : Option String

/-- app.py `fetch_and_parse`: the HTTP layer, gzip decompression and XML
parsing are oracles; every exception path of the source collapses to `none`
(requests errors and timeouts make the oracle return `none`, the inner
`try` around gzip makes a failed decompression `none`, and the outer `try`
makes a failed XML parse `none`). The function is total: it never raises. -/
def fetch_and_parse (http : String → Option HttpResponse)
    (gunzip : List Nat → Option (List Nat))
    (parseXml : List Nat → Option XmlElem) (url : String) : Option XmlElem :=
  match http url with
  | none => none
  | some response =>
    if response.status_code ≠ 200 then none
    else
      let content := response.content
      if endsWithStr url ".gz" || response.contentType = some "application/x-gzip" then
        match gunzip content with
        | none => none
        | some c => parseXml c
      else parseXml content

/-- The bytes `fetch_and_parse` actually hands to the XML parser: the gzip
decompression result when the payload is selected for decompression, the raw
body otherwise. -/
def effectiveContent (gunzip : List Nat → Option (List Nat)) (url : String)
    (r : HttpResponse) : Option (List Nat) :=
  if endsWithStr url ".gz" || r.contentType = some "application/x-gzip" then
    gunzip r.content
  else some r.content

/-- Directive extraction for one robots.txt line (app.py lines 31-32): a line
whose lowercased stripped form starts with the directive marker contributes
the part of the original line after its first colon, stripped. -/
def sitemapDirective (line : String) : Option String :=
  if startsWithStr (lowerStr (stripStr line)) "sitemap:" then
    match splitFirst ':' line.toList with
    | some (_, after) => some (stripStr (String.mk after))
    | none => none
  else none

/-- app.py `get_sitemap_from_robots`: fetch `urljoin(domain_url, chr 47 ++
"robots.txt")`; on a 200 response, scan the body line by line collecting the
directives in order; any fetch failure or non-200 status yields the empty
list. -/
def get_sitemap_from_robots (http : String → Option HttpResponse)
    (domain_url : String) : List String :=
  let robots_url := urljoin domain_url "/robots.txt"
  match http robots_url with
  | none => []
  | some response =>
    if response.status_code = 200 then
      (splitlinesStr response.text).foldl
        (fun sitemaps line =>
          match sitemapDirective line with
          | some u => sitemaps ++ [u]
          | none => sitemaps) []
    else []

/-- Seed resolution of the UI block (app.py lines 154-160): the robots.txt
directives when there are any, otherwise the single fallback seed
`urljoin(url_input, "sitemap.xml")`. -/
def initialSitemaps (http : String → Option HttpResponse) (url_input : String) :
    List String :=
  let s := get_sitemap_from_robots http url_input
  if s = [] then [urljoin url_input "sitemap.xml"] else s

/-- Input normalization of the UI block (app.py lines 148-150): prefix
`https://` exactly when the input does not start with `http`. -/
def normalizeInput (url_input : String) : String :=
  if !startsWithStr url_input "http" then "https://" ++ url_input else url_input

/-! ## Concrete fixtures and spec-side comparators used by the claims -/

/-- A tag in the standard sitemap namespace. -/
def nsTag (n : String) : String :=
  "\x7bhttp://www.sitemaps.org/schemas/sitemap/0.9\x7d" ++ n

/-- The sitemap-index document of the end-to-end scenario: one `sitemap`
entry pointing at the child sitemap. -/
def scenarioIndexDoc : XmlElem :=
  ⟨nsTag "sitemapindex", none,
    [⟨nsTag "sitemap", none, [⟨nsTag "loc", some "https://a.com/sitemap1.xml", []⟩]⟩]⟩

/-- The child urlset document of the end-to-end scenario: the homepage of
`a.com` and a deep page of `blog.a.com`. -/
def scenarioChildDoc : XmlElem :=
  ⟨nsTag "urlset", none,
    [⟨nsTag "url", none, [⟨nsTag "loc", some "https://a.com/", []⟩]⟩,
     ⟨nsTag "url", none, [⟨nsTag "loc", some "https://blog.a.com/post", []⟩]⟩]⟩

/-- Fetch outcomes of the end-to-end scenario. -/
def scenarioNet (u : String) : Option XmlElem :=
  if u = "https://a.com/sitemap_index.xml" then some scenarioIndexDoc
  else if u = "https://a.com/sitemap1.xml" then some scenarioChildDoc
  else none

/-- First URL of the cyclic two-sitemap graph. -/
def cycUrlA : String := "https://a.com/sa.xml"

/-- Second URL of the cyclic two-sitemap graph. -/
def cycUrlB : String := "https://a.com/sb.xml"

/-- Fetch outcomes of a cyclic sitemap graph: A references B and B references
A. -/
def cycNet (u : String) : Option XmlElem :=
  if u = cycUrlA then
    some ⟨"sitemapindex", none, [⟨"sitemap", none, [⟨"loc", some cycUrlB, []⟩]⟩]⟩
  else if u = cycUrlB then
    some ⟨"sitemapindex", none, [⟨"sitemap", none, [⟨"loc", some cycUrlA, []⟩]⟩]⟩
  else none

/-- The locs a fetched document can contribute to the queue, used to state
graph finiteness: the truthy loc of each child. -/
def childUrls (doc : XmlElem) : List String := doc.children.filterMap truthyLoc

/-- `is_sitemap_url` as claim C6 words it: the two suffix tests applied to
the original string and the substring test applied to the lowercased
string. -/
def is_sitemap_url_claim (url : String) : Bool :=
  endsWithStr url ".xml" || endsWithStr url ".xml.gz" || containsStr (lowerStr url) "sitemap"

/-- Deep-mode handling of a `url` entry as claim C2 words it: when the loc is
a sitemap URL not yet visited it is enqueued, and in every other case the
netloc is extracted and added when non-empty. -/
def claimDeepUrlEntry (visited : List String) (acc : List String × List String) (loc : String) :
    List String × List String :=
  if is_sitemap_url loc = true ∧ loc ∉ visited then (acc.1 ++ [loc], acc.2)
  else (acc.1, addDomain loc acc.2)

/-- Concrete `url` entry whose loc is an already-visited sitemap URL, the
input separating the code from claim C2's wording. -/
def ceChild : XmlElem :=
  ⟨"url", none, [⟨"loc", some "https://a.com/old-sitemap.xml", []⟩]⟩

/-- Tag extraction as claim C9 words it: the first immediate child whose
local name is `loc` contributes its trimmed text, and the result is absent
when no such child exists or that text is empty or whitespace-only. -/
def findLocSpec (children : List XmlElem) : Option String :=
  (children.find? (fun sub => localName sub.tag = "loc")).bind
    (fun sub => sub.text.bind
      (fun t => if stripStr t = "" then none else some (stripStr t)))

/-- Robots.txt fetch outcomes for the concrete seed-resolution scenario:
two directives, one of them oddly cased and indented. -/
def robotsScenarioNet (u : String) : Option HttpResponse :=
  if u = "https://a.com/robots.txt" then
    some ⟨200, [], "User-agent: *\nSitemap: https://a.com/s1.xml\n SiTeMap:https://a.com/s2.xml\n", none⟩
  else none

/-- Concrete `url` entry holding a homepage loc, used to instantiate the
policy theorems. -/
def wChild : XmlElem := ⟨"url", none, [⟨"loc", some "https://a.com/", []⟩]⟩

/-! ## General lemmas about set insertion and the traversal step -/

theorem subset_insertSet (x : String) (l : List String) : l ⊆ insertSet x l := by
  unfold insertSet
  split
  · exact fun a h => h
  · exact List.subset_append_left _ _

theorem subset_addDomain (loc : String) (domains : List String) :
    domains ⊆ addDomain loc domains := by
  simp only [addDomain]
  split
  · exact subset_insertSet _ _
  · exact fun a h => h

theorem crawlChildDeep_snd_mono (v : List String) (acc : List String × List String)
    (c : XmlElem) : acc.2 ⊆ (crawlChildDeep v acc c).2 := by
  unfold crawlChildDeep
  cases h : truthyLoc c with
  | none => simp
  | some l =>
    simp only
    split_ifs <;> first
      | exact fun a ha => ha
      | exact subset_addDomain _ _

theorem crawlChildFast_snd_mono (v : List String) (acc : List String × List String)
    (c : XmlElem) : acc.2 ⊆ (crawlChildFast v acc c).2 := by
  unfold crawlChildFast
  cases h : truthyLoc c with
  | none => simp
  | some l =>
    simp only
    split_ifs <;> first
      | exact fun a ha => ha
      | exact subset_addDomain _ _

theorem crawlChildDeep_fst_shape (v : List String) (acc : List String × List String)
    (c : XmlElem) :
    (crawlChildDeep v acc c).1 = acc.1 ∨
      ∃ l, truthyLoc c = some l ∧ (crawlChildDeep v acc c).1 = acc.1 ++ [l] := by
  unfold crawlChildDeep
  cases h : truthyLoc c with
  | none => exact Or.inl rfl
  | some l =>
    simp only
    split_ifs <;> first
      | exact Or.inl rfl
      | exact Or.inr ⟨l, rfl, rfl⟩

theorem crawlChildFast_fst_shape (v : List String) (acc : List String × List String)
    (c : XmlElem) :
    (crawlChildFast v acc c).1 = acc.1 ∨
      ∃ l, truthyLoc c = some l ∧ (crawlChildFast v acc c).1 = acc.1 ++ [l] := by
  unfold crawlChildFast
  cases h : truthyLoc c with
  | none => exact Or.inl rfl
  | some l =>
    simp only
    split_ifs <;> first
      | exact Or.inl rfl
      | exact Or.inr ⟨l, rfl, rfl⟩

theorem foldl_snd_mono (f : List String × List String → XmlElem → List String × List String)
    (hf : ∀ acc c, acc.2 ⊆ (f acc c).2) :
    ∀ (l : List XmlElem) (acc : List String × List String), acc.2 ⊆ (l.foldl f acc).2 := by
  intro l
  induction l with
  | nil => intro acc; exact fun a h => h
  | cons c cs ih => intro acc; exact (hf acc c).trans (ih (f acc c))

theorem foldl_fst_mem (f : List String × List String → XmlElem → List String × List String)
    (hf : ∀ acc c, (f acc c).1 = acc.1 ∨ ∃ l, truthyLoc c = some l ∧ (f acc c).1 = acc.1 ++ [l]) :
    ∀ (l : List XmlElem) (acc : List String × List String) (y : String),
      y ∈ (l.foldl f acc).1 → y ∈ acc.1 ∨ ∃ c ∈ l, ∃ s, truthyLoc c = some s ∧ y = s := by
  intro l
  induction l with
  | nil => intro acc y hy; exact Or.inl hy
  | cons c cs ih =>
    intro acc y hy
    rcases ih (f acc c) y hy with h | ⟨c2, hc2, s, hs, hy2⟩
    · rcases hf acc c with he | ⟨s, hs, he⟩
      · rw [he] at h; exact Or.inl h
      · rw [he] at h
        rcases List.mem_append.mp h with h | h
        · exact Or.inl h
        · exact Or.inr ⟨c, List.mem_cons_self _ _, s, hs, List.mem_singleton.mp h⟩
    · exact Or.inr ⟨c2, List.mem_cons_of_mem _ hc2, s, hs, hy2⟩

theorem crawlStep_discard (cf : ChildFn) (net : String → Option XmlElem)
    (cur : String) (rest v d f : List String) (hv : cur ∈ v) :
    crawlStep cf net ⟨cur :: rest, v, d, f⟩ = ⟨rest, v, d, f⟩ := by
  simp [crawlStep, hv]

theorem crawlStep_none (cf : ChildFn) (net : String → Option XmlElem)
    (cur : String) (rest v d f : List String) (hv : cur ∉ v) (hn : net cur = none) :
    crawlStep cf net ⟨cur :: rest, v, d, f⟩ = ⟨rest, v ++ [cur], d, f ++ [cur]⟩ := by
  simp [crawlStep, hv, hn]

theorem crawlStep_some (cf : ChildFn) (net : String → Option XmlElem)
    (cur : String) (rest v d f : List String) (root : XmlElem)
    (hv : cur ∉ v) (hn : net cur = some root) :
    crawlStep cf net ⟨cur :: rest, v, d, f⟩ =
      ⟨(root.children.foldl (cf (v ++ [cur])) (rest, d)).1, v ++ [cur],
       (root.children.foldl (cf (v ++ [cur])) (rest, d)).2, f ++ [cur]⟩ := by
  simp [crawlStep, hv, hn]

theorem crawlStep_visited_sub (cf : ChildFn) (net : String → Option XmlElem)
    (st : CrawlState) : st.visited ⊆ (crawlStep cf net st).visited := by
  obtain ⟨q, v, d, f⟩ := st
  cases q with
  | nil => exact fun a h => h
  | cons cur rest =>
    by_cases hv : cur ∈ v
    · rw [crawlStep_discard cf net cur rest v d f hv]
      exact fun a h => h
    · cases hn : net cur with
      | none =>
        rw [crawlStep_none cf net cur rest v d f hv hn]
        exact List.subset_append_left _ _
      | some root =>
        rw [crawlStep_some cf net cur rest v d f root hv hn]
        exact List.subset_append_left _ _

theorem crawlStep_domains_sub (cf : ChildFn)
    (hcf : ∀ v acc c, acc.2 ⊆ (cf v acc c).2) (net : String → Option XmlElem)
    (st : CrawlState) : st.domains ⊆ (crawlStep cf net st).domains := by
  obtain ⟨q, v, d, f⟩ := st
  cases q with
  | nil => exact fun a h => h
  | cons cur rest =>
    by_cases hv : cur ∈ v
    · rw [crawlStep_discard cf net cur rest v d f hv]
      exact fun a h => h
    · cases hn : net cur with
      | none =>
        rw [crawlStep_none cf net cur rest v d f hv hn]
        exact fun a h => h
      | some root =>
        rw [crawlStep_some cf net cur rest v d f root hv hn]
        exact foldl_snd_mono (cf (v ++ [cur])) (hcf (v ++ [cur])) root.children (rest, d)

theorem crawlLoop_succ_cons (cf : ChildFn) (net : String → Option XmlElem) (n : Nat)
    (cur : String) (rest v d f : List String) :
    crawlLoop cf net (n + 1) ⟨cur :: rest, v, d, f⟩ =
      crawlLoop cf net n (crawlStep cf net ⟨cur :: rest, v, d, f⟩) := rfl

theorem crawlLoop_of_queue_nil (cf : ChildFn) (net : String → Option XmlElem) :
    ∀ (n : Nat) (st : CrawlState), st.queue = [] → crawlLoop cf net n st = st := by
  intro n st h
  obtain ⟨q, v, d, f⟩ := st
  cases n with
  | zero => rfl
  | succ n =>
    simp only at h
    subst h
    rfl

theorem crawlLoop_visited_sub (cf : ChildFn) (net : String → Option XmlElem) :
    ∀ (n : Nat) (st : CrawlState), st.visited ⊆ (crawlLoop cf net n st).visited := by
  intro n
  induction n with
  | zero => intro st; exact fun a h => h
  | succ n ih =>
    intro st
    obtain ⟨q, v, d, f⟩ := st
    cases q with
    | nil => exact fun a h => h
    | cons cur rest =>
      rw [crawlLoop_succ_cons]
      exact (crawlStep_visited_sub cf net _).trans (ih _)

theorem crawlLoop_domains_sub (cf : ChildFn)
    (hcf : ∀ v acc c, acc.2 ⊆ (cf v acc c).2) (net : String → Option XmlElem) :
    ∀ (n : Nat) (st : CrawlState), st.domains ⊆ (crawlLoop cf net n st).domains := by
  intro n
  induction n with
  | zero => intro st; exact fun a h => h
  | succ n ih =>
    intro st
    obtain ⟨q, v, d, f⟩ := st
    cases q with
    | nil => exact fun a h => h
    | cons cur rest =>
      rw [crawlLoop_succ_cons]
      exact (crawlStep_domains_sub cf hcf net _).trans (ih _)

theorem crawlStep_fetch_inv (cf : ChildFn) (net : String → Option XmlElem)
    (st : CrawlState) (h1 : st.fetched.Nodup) (h2 : ∀ u ∈ st.fetched, u ∈ st.visited) :
    (crawlStep cf net st).fetched.Nodup ∧
      ∀ u ∈ (crawlStep cf net st).fetched, u ∈ (crawlStep cf net st).visited := by
  obtain ⟨q, v, d, f⟩ := st
  cases q with
  | nil => exact ⟨h1, h2⟩
  | cons cur rest =>
    by_cases hv : cur ∈ v
    · rw [crawlStep_discard cf net cur rest v d f hv]
      exact ⟨h1, h2⟩
    · have hcurf : cur ∉ f := fun hc => hv (h2 cur hc)
      have hnodup : (f ++ [cur]).Nodup :=
        List.nodup_append.mpr ⟨h1, List.nodup_singleton _, List.disjoint_singleton.mpr hcurf⟩
      have hsub : ∀ u ∈ f ++ [cur], u ∈ v ++ [cur] := by
        intro u hu
        rcases List.mem_append.mp hu with h | h
        · exact List.mem_append_left _ (h2 u h)
        · exact List.mem_append_right _ h
      cases hn : net cur with
      | none =>
        rw [crawlStep_none cf net cur rest v d f hv hn]
        exact ⟨hnodup, hsub⟩
      | some root =>
        rw [crawlStep_some cf net cur rest v d f root hv hn]
        exact ⟨hnodup, hsub⟩

theorem crawlLoop_fetch_inv (cf : ChildFn) (net : String → Option XmlElem) :
    ∀ (n : Nat) (st : CrawlState), st.fetched.Nodup → (∀ u ∈ st.fetched, u ∈ st.visited) →
      (crawlLoop cf net n st).fetched.Nodup ∧
        ∀ u ∈ (crawlLoop cf net n st).fetched, u ∈ (crawlLoop cf net n st).visited := by
  intro n
  induction n with
  | zero => intro st h1 h2; exact ⟨h1, h2⟩
  | succ n ih =>
    intro st h1 h2
    obtain ⟨q, v, d, f⟩ := st
    cases q with
    | nil => exact ⟨h1, h2⟩
    | cons cur rest =>
      rw [crawlLoop_succ_cons]
      have hstep := crawlStep_fetch_inv cf net ⟨cur :: rest, v, d, f⟩ h1 h2
      exact ih _ hstep.1 hstep.2

theorem crawlStep_U_inv (cf : ChildFn)
    (hcf : ∀ v acc c, (cf v acc c).1 = acc.1 ∨
      ∃ l, truthyLoc c = some l ∧ (cf v acc c).1 = acc.1 ++ [l])
    (net : String → Option XmlElem) (U : List String)
    (hclosed : ∀ u ∈ U, ∀ doc, net u = some doc → ∀ s ∈ childUrls doc, s ∈ U)
    (st : CrawlState) (hq : st.queue ⊆ U) (hf : st.fetched ⊆ U) :
    (crawlStep cf net st).queue ⊆ U ∧ (crawlStep cf net st).fetched ⊆ U := by
  obtain ⟨q, v, d, f⟩ := st
  cases q with
  | nil => exact ⟨hq, hf⟩
  | cons cur rest =>
    have hrest : rest ⊆ U := fun a ha => hq (List.mem_cons_of_mem _ ha)
    have hcurU : cur ∈ U := hq (List.mem_cons_self _ _)
    have hfcur : f ++ [cur] ⊆ U := by
      intro a ha
      rcases List.mem_append.mp ha with h | h
      · exact hf h
      · rw [List.mem_singleton.mp h]; exact hcurU
    by_cases hv : cur ∈ v
    · rw [crawlStep_discard cf net cur rest v d f hv]
      exact ⟨hrest, hf⟩
    · cases hn : net cur with
      | none =>
        rw [crawlStep_none cf net cur rest v d f hv hn]
        exact ⟨hrest, hfcur⟩
      | some root =>
        rw [crawlStep_some cf net cur rest v d f root hv hn]
        refine ⟨?_, hfcur⟩
        intro y hy
        rcases foldl_fst_mem (cf (v ++ [cur])) (hcf (v ++ [cur])) root.children (rest, d) y hy with
          h | ⟨c, hc, s, hs, hys⟩
        · exact hrest h
        · rw [hys]
          exact hclosed cur hcurU root hn s (List.mem_filterMap.mpr ⟨c, hc, hs⟩)

theorem crawlLoop_U_inv (cf : ChildFn)
    (hcf : ∀ v acc c, (cf v acc c).1 = acc.1 ∨
      ∃ l, truthyLoc c = some l ∧ (cf v acc c).1 = acc.1 ++ [l])
    (net : String → Option XmlElem) (U : List String)
    (hclosed : ∀ u ∈ U, ∀ doc, net u = some doc → ∀ s ∈ childUrls doc, s ∈ U) :
    ∀ (n : Nat) (st : CrawlState), st.queue ⊆ U → st.fetched ⊆ U →
      (crawlLoop cf net n st).queue ⊆ U ∧ (crawlLoop cf net n st).fetched ⊆ U := by
  intro n
  induction n with
  | zero => intro st hq hf; exact ⟨hq, hf⟩
  | succ n ih =>
    intro st hq hf
    obtain ⟨q, v, d, f⟩ := st
    cases q with
    | nil => exact ⟨hq, hf⟩
    | cons cur rest =>
      rw [crawlLoop_succ_cons]
      have hstep := crawlStep_U_inv cf hcf net U hclosed ⟨cur :: rest, v, d, f⟩ hq hf
      exact ih _ hstep.1 hstep.2

theorem measure_decrease (U v : List String) (cur : String)
    (hU : cur ∈ U) (hv : cur ∉ v) :
    (U.toFinset \ (v ++ [cur]).toFinset).card < (U.toFinset \ v.toFinset).card := by
  apply Finset.card_lt_card
  have hsub : U.toFinset \ (v ++ [cur]).toFinset ⊆ U.toFinset \ v.toFinset := by
    refine Finset.sdiff_subset_sdiff (Finset.Subset.refl _) ?_
    intro a ha
    rw [List.mem_toFinset] at *
    exact List.mem_append_left _ ha
  rw [Finset.ssubset_iff_of_subset hsub]
  refine ⟨cur, Finset.mem_sdiff.mpr ⟨List.mem_toFinset.mpr hU,
    fun hc => hv (List.mem_toFinset.mp hc)⟩, fun hc => ?_⟩
  exact (Finset.mem_sdiff.mp hc).2
    (List.mem_toFinset.mpr (List.mem_append_right _ (List.mem_singleton.mpr rfl)))

theorem nodup_subset_length {α : Type} [DecidableEq α] {l u : List α}
    (hl : l.Nodup) (hs : l ⊆ u) : l.length ≤ u.length :=
  calc l.length = l.toFinset.card := (List.toFinset_card_of_nodup hl).symm
    _ ≤ u.toFinset.card :=
        Finset.card_le_card (fun a ha => List.mem_toFinset.mpr (hs (List.mem_toFinset.mp ha)))
    _ ≤ u.length := u.toFinset_card_le

theorem crawlLoop_reaches_empty (cf : ChildFn)
    (hcf : ∀ v acc c, (cf v acc c).1 = acc.1 ∨
      ∃ l, truthyLoc c = some l ∧ (cf v acc c).1 = acc.1 ++ [l])
    (net : String → Option XmlElem) (U : List String)
    (hclosed : ∀ u ∈ U, ∀ doc, net u = some doc → ∀ s ∈ childUrls doc, s ∈ U) :
    ∀ (k q : Nat) (st : CrawlState), (U.toFinset \ st.visited.toFinset).card ≤ k →
      st.queue.length ≤ q → st.queue ⊆ U → st.fetched ⊆ U →
      ∃ fuel, (crawlLoop cf net fuel st).queue = [] := by
  intro k
  induction k with
  | zero =>
    intro q
    induction q with
    | zero =>
      intro st _ hlen _ _
      exact ⟨0, List.length_eq_zero.mp (Nat.le_zero.mp hlen)⟩
    | succ q ihq =>
      intro st hk hlen hq hf
      obtain ⟨qu, v, d, f⟩ := st
      cases qu with
      | nil => exact ⟨0, rfl⟩
      | cons cur rest =>
        dsimp only at hk hlen hq hf
        have hcurU : cur ∈ U := hq (List.mem_cons_self _ _)
        have hcv : cur ∈ v := by
          by_contra hcv
          have hmem : cur ∈ U.toFinset \ v.toFinset :=
            Finset.mem_sdiff.mpr ⟨List.mem_toFinset.mpr hcurU,
              fun h => hcv (List.mem_toFinset.mp h)⟩
          have hpos : 0 < (U.toFinset \ v.toFinset).card := Finset.card_pos.mpr ⟨cur, hmem⟩
          omega
        obtain ⟨fuel, hfuel⟩ := ihq ⟨rest, v, d, f⟩ hk (Nat.le_of_succ_le_succ hlen)
          (fun a ha => hq (List.mem_cons_of_mem _ ha)) hf
        refine ⟨fuel + 1, ?_⟩
        rw [crawlLoop_succ_cons, crawlStep_discard cf net cur rest v d f hcv]
        exact hfuel
  | succ k ihk =>
    intro q
    induction q with
    | zero =>
      intro st _ hlen _ _
      exact ⟨0, List.length_eq_zero.mp (Nat.le_zero.mp hlen)⟩
    | succ q ihq =>
      intro st hk hlen hq hf
      obtain ⟨qu, v, d, f⟩ := st
      cases qu with
      | nil => exact ⟨0, rfl⟩
      | cons cur rest =>
        dsimp only at hk hlen hq hf
        by_cases hcv : cur ∈ v
        · obtain ⟨fuel, hfuel⟩ := ihq ⟨rest, v, d, f⟩ hk (Nat.le_of_succ_le_succ hlen)
            (fun a ha => hq (List.mem_cons_of_mem _ ha)) hf
          refine ⟨fuel + 1, ?_⟩
          rw [crawlLoop_succ_cons, crawlStep_discard cf net cur rest v d f hcv]
          exact hfuel
        · have hcurU : cur ∈ U := hq (List.mem_cons_self _ _)
          have hstep := crawlStep_U_inv cf hcf net U hclosed ⟨cur :: rest, v, d, f⟩ hq hf
          have hvis : (crawlStep cf net ⟨cur :: rest, v, d, f⟩).visited = v ++ [cur] := by
            cases hn : net cur with
            | none => rw [crawlStep_none cf net cur rest v d f hcv hn]
            | some root => rw [crawlStep_some cf net cur rest v d f root hcv hn]
          have hmeas :
              (U.toFinset \ (crawlStep cf net ⟨cur :: rest, v, d, f⟩).visited.toFinset).card ≤ k := by
            rw [hvis]
            have := measure_decrease U v cur hcurU hcv
            omega
          obtain ⟨fuel, hfuel⟩ := ihk (crawlStep cf net ⟨cur :: rest, v, d, f⟩).queue.length
            (crawlStep cf net ⟨cur :: rest, v, d, f⟩) hmeas (Nat.le_refl _) hstep.1 hstep.2
          refine ⟨fuel + 1, ?_⟩
          rw [crawlLoop_succ_cons]
          exact hfuel

/-! ## Claim theorems -/

/-- C1: starting from the single seed `https://a.com/sitemap_index.xml`,
where that document holds one sitemap entry pointing at
`https://a.com/sitemap1.xml`, which holds the url entries `https://a.com/`
and `https://blog.a.com/post`, the deep traversal returns the
lexicographically sorted deduplicated domain list `["a.com", "blog.a.com"]`
and the fast traversal returns `["a.com"]`. -/
theorem crawler_scenario_end_to_end :
    crawler scenarioNet 4 ["https://a.com/sitemap_index.xml"] = some ["a.com", "blog.a.com"] ∧
    fast_crawler scenarioNet 4 ["https://a.com/sitemap_index.xml"] = some ["a.com"] :=
  ⟨by rfl, by rfl⟩

/-- C3: in every traversal run the visited set and the domain set only grow
(for both policies); a dequeued URL already in the visited set is discarded
without fetching; when a URL is fetched it is added to the visited set at
the same step it enters the fetch log; starting from an initial state the
fetch log never repeats a URL and stays inside the visited set; and on the
concrete cyclic graph A referencing B referencing A the run terminates with
each of A and B fetched once. -/
theorem crawl_invariants :
    (∀ net fuel st, st.visited ⊆ (crawlLoop crawlChildDeep net fuel st).visited ∧
       st.domains ⊆ (crawlLoop crawlChildDeep net fuel st).domains) ∧
    (∀ net fuel st, st.visited ⊆ (crawlLoop crawlChildFast net fuel st).visited ∧
       st.domains ⊆ (crawlLoop crawlChildFast net fuel st).domains) ∧
    (∀ cf net cur rest v d f, cur ∈ v →
       crawlStep cf net ⟨cur :: rest, v, d, f⟩ = ⟨rest, v, d, f⟩) ∧
    (∀ cf net cur rest v d f, cur ∉ v →
       (crawlStep cf net ⟨cur :: rest, v, d, f⟩).visited = v ++ [cur] ∧
       (crawlStep cf net ⟨cur :: rest, v, d, f⟩).fetched = f ++ [cur]) ∧
    (∀ cf net fuel seeds,
       (crawlLoop cf net fuel (initState seeds)).fetched.Nodup ∧
       ∀ u ∈ (crawlLoop cf net fuel (initState seeds)).fetched,
         u ∈ (crawlLoop cf net fuel (initState seeds)).visited) ∧
    ((crawlLoop crawlChildDeep cycNet 4 (initState [cycUrlA])).queue = [] ∧
     (crawlLoop crawlChildDeep cycNet 4 (initState [cycUrlA])).fetched = [cycUrlA, cycUrlB]) := by
  refine ⟨?_, ?_, ?_, ?_, ?_, rfl, rfl⟩
  · intro net fuel st
    exact ⟨crawlLoop_visited_sub crawlChildDeep net fuel st,
      crawlLoop_domains_sub crawlChildDeep crawlChildDeep_snd_mono net fuel st⟩
  · intro net fuel st
    exact ⟨crawlLoop_visited_sub crawlChildFast net fuel st,
      crawlLoop_domains_sub crawlChildFast crawlChildFast_snd_mono net fuel st⟩
  · intro cf net cur rest v d f hv
    exact crawlStep_discard cf net cur rest v d f hv
  · intro cf net cur rest v d f hv
    cases hn : net cur with
    | none => rw [crawlStep_none cf net cur rest v d f hv hn]; exact ⟨rfl, rfl⟩
    | some root => rw [crawlStep_some cf net cur rest v d f root hv hn]; exact ⟨rfl, rfl⟩
  · intro cf net fuel seeds
    exact crawlLoop_fetch_inv cf net fuel (initState seeds) List.nodup_nil
      (fun u hu => absurd hu (List.not_mem_nil u))

/-- Witness for C3: the discard conjunct applied at a concrete state whose
queue head is already visited. -/
theorem crawl_invariants_witness :
    crawlStep crawlChildDeep (fun _ => none)
        ⟨["https://a.com/s.xml"], ["https://a.com/s.xml"], [], []⟩ =
      ⟨[], ["https://a.com/s.xml"], [], []⟩ :=
  crawl_invariants.2.2.1 crawlChildDeep (fun _ => none) "https://a.com/s.xml" []
    ["https://a.com/s.xml"] [] [] (List.mem_singleton.mpr rfl)

/-- C4: for every sitemap graph whose reachable sitemap URLs fit inside a
finite closed set `U` (covering cyclic graphs as well), each traversal
empties its queue within some fuel, and the number of fetches performed is
bounded by the number of distinct sitemap URLs encountered, i.e. the size
of `U`. -/
theorem crawl_termination (net : String → Option XmlElem) (U seeds : List String)
    (hnodup : U.Nodup) (hseeds : seeds ⊆ U)
    (hclosed : ∀ u ∈ U, ∀ doc, net u = some doc → ∀ s ∈ childUrls doc, s ∈ U) :
    (∃ fuel, (crawlLoop crawlChildDeep net fuel (initState seeds)).queue = [] ∧
       (crawlLoop crawlChildDeep net fuel (initState seeds)).fetched.length ≤ U.length) ∧
    (∃ fuel, (crawlLoop crawlChildFast net fuel (initState seeds)).queue = [] ∧
       (crawlLoop crawlChildFast net fuel (initState seeds)).fetched.length ≤ U.length) := by
  constructor
  · obtain ⟨fuel, hfuel⟩ := crawlLoop_reaches_empty crawlChildDeep crawlChildDeep_fst_shape
      net U hclosed (U.toFinset \ (initState seeds).visited.toFinset).card seeds.length
      (initState seeds) (Nat.le_refl _) (Nat.le_refl _) hseeds
      (fun u hu => absurd hu (List.not_mem_nil u))
    refine ⟨fuel, hfuel, ?_⟩
    have hU := crawlLoop_U_inv crawlChildDeep crawlChildDeep_fst_shape net U hclosed
      fuel (initState seeds) hseeds (fun u hu => absurd hu (List.not_mem_nil u))
    have hN := crawlLoop_fetch_inv crawlChildDeep net fuel (initState seeds) List.nodup_nil
      (fun u hu => absurd hu (List.not_mem_nil u))
    exact nodup_subset_length hN.1 hU.2
  · obtain ⟨fuel, hfuel⟩ := crawlLoop_reaches_empty crawlChildFast crawlChildFast_fst_shape
      net U hclosed (U.toFinset \ (initState seeds).visited.toFinset).card seeds.length
      (initState seeds) (Nat.le_refl _) (Nat.le_refl _) hseeds
      (fun u hu => absurd hu (List.not_mem_nil u))
    refine ⟨fuel, hfuel, ?_⟩
    have hU := crawlLoop_U_inv crawlChildFast crawlChildFast_fst_shape net U hclosed
      fuel (initState seeds) hseeds (fun u hu => absurd hu (List.not_mem_nil u))
    have hN := crawlLoop_fetch_inv crawlChildFast net fuel (initState seeds) List.nodup_nil
      (fun u hu => absurd hu (List.not_mem_nil u))
    exact nodup_subset_length hN.1 hU.2

/-- Witness for C4: applied to the singleton graph whose only URL fails to
fetch. -/
theorem crawl_termination_witness :
    (∃ fuel, (crawlLoop crawlChildDeep (fun _ => none) fuel
        (initState ["https://a.com/sitemap.xml"])).queue = [] ∧
       (crawlLoop crawlChildDeep (fun _ => none) fuel
        (initState ["https://a.com/sitemap.xml"])).fetched.length ≤
          (["https://a.com/sitemap.xml"] : List String).length) ∧
    (∃ fuel, (crawlLoop crawlChildFast (fun _ => none) fuel
        (initState ["https://a.com/sitemap.xml"])).queue = [] ∧
       (crawlLoop crawlChildFast (fun _ => none) fuel
        (initState ["https://a.com/sitemap.xml"])).fetched.length ≤
          (["https://a.com/sitemap.xml"] : List String).length) :=
  crawl_termination (fun _ => none) ["https://a.com/sitemap.xml"]
    ["https://a.com/sitemap.xml"] (List.nodup_singleton _) (fun a h => h)
    (fun _ _ _ hdoc => Option.noConfusion hdoc)

/-- C2 (amended): for a `url` entry with a resolved loc, the deep policy
enqueues the loc when `is_sitemap_url` holds and it is unvisited, does
nothing at all when `is_sitemap_url` holds but the loc is already visited,
and extracts the netloc (added when non-empty) only when `is_sitemap_url`
fails; the fast policy adds the netloc exactly when `is_homepage` holds and
never enqueues. -/
theorem url_entry_policy (v : List String) (acc : List String × List String)
    (child : XmlElem) (loc : String) (hloc : truthyLoc child = some loc)
    (htag : localName child.tag = "url") :
    crawlChildDeep v acc child =
      (if is_sitemap_url loc then
        (if loc ∉ v then (acc.1 ++ [loc], acc.2) else acc)
       else (acc.1, addDomain loc acc.2)) ∧
    crawlChildFast v acc child =
      (if is_homepage loc then (acc.1, addDomain loc acc.2) else acc) ∧
    (crawlChildFast v acc child).1 = acc.1 := by
  have hne : ¬ (("url" : String) = "sitemap") := by decide
  refine ⟨?_, ?_, ?_⟩
  · unfold crawlChildDeep
    rw [hloc]
    dsimp only
    rw [htag, if_neg hne, if_pos rfl]
  · unfold crawlChildFast
    rw [hloc]
    dsimp only
    rw [htag, if_neg hne, if_pos rfl]
  · unfold crawlChildFast
    rw [hloc]
    dsimp only
    rw [htag, if_neg hne, if_pos rfl]
    split <;> rfl

/-- C2 (counterexample): on a `url` entry whose loc is a sitemap-looking URL
already in the visited set, the code drops the entry entirely, while the
claim's "otherwise extract the netloc" branch would add `a.com` to the
domain set. -/
theorem url_entry_policy_counterexample :
    truthyLoc ceChild = some "https://a.com/old-sitemap.xml" ∧
    localName ceChild.tag = "url" ∧
    is_sitemap_url "https://a.com/old-sitemap.xml" = true ∧
    crawlChildDeep ["https://a.com/old-sitemap.xml"] ([], []) ceChild = ([], []) ∧
    claimDeepUrlEntry ["https://a.com/old-sitemap.xml"] ([], [])
      "https://a.com/old-sitemap.xml" = ([], ["a.com"]) ∧
    crawlChildDeep ["https://a.com/old-sitemap.xml"] ([], []) ceChild ≠
      claimDeepUrlEntry ["https://a.com/old-sitemap.xml"] ([], [])
        "https://a.com/old-sitemap.xml" := by
  refine ⟨by rfl, by rfl, by rfl, by rfl, by rfl, ?_⟩
  intro h
  have h1 : crawlChildDeep ["https://a.com/old-sitemap.xml"] ([], []) ceChild =
      (([], []) : List String × List String) := by rfl
  have h2 : claimDeepUrlEntry ["https://a.com/old-sitemap.xml"] ([], [])
      "https://a.com/old-sitemap.xml" = (([], ["a.com"]) : List String × List String) := by rfl
  rw [h1, h2] at h
  simp at h

/-- Witness for C2: the amended policy theorem applied to a homepage
entry. -/
theorem url_entry_policy_witness :
    crawlChildDeep [] ([], []) wChild = ([], ["a.com"]) ∧
    crawlChildFast [] ([], []) wChild = ([], ["a.com"]) ∧
    (crawlChildFast [] ([], []) wChild).1 = [] := by
  have h := url_entry_policy [] ([], []) wChild "https://a.com/" (by rfl) (by rfl)
  refine ⟨?_, ?_, h.2.2⟩
  · rw [h.1]; rfl
  · rw [h.2.1]; rfl

/-- C5: `fetch_and_parse` returns the failure signal `none` exactly when the
HTTP oracle fails (network error or timeout), the status is not 200, gzip
decompression fails on a payload selected for decompression (URL ending in
`.gz` or gzip content-type), or the effective — possibly decompressed —
bytes fail to parse as XML; it is a total function, so it never raises; and
on a failing fetch the traversal abandons the URL, already marked visited,
leaving the domain set untouched and continuing with the remaining queue. -/
theorem fetch_failure_modes :
    (∀ http gunzip parseXml url,
      fetch_and_parse http gunzip parseXml url = none ↔
        http url = none ∨
        ∃ r, http url = some r ∧
          (r.status_code ≠ 200 ∨
           ((endsWithStr url ".gz" || r.contentType = some "application/x-gzip") = true ∧
             gunzip r.content = none) ∨
           ∃ b, effectiveContent gunzip url r = some b ∧ parseXml b = none)) ∧
    (∀ cf net cur rest v d f, cur ∉ v → net cur = none →
      crawlStep cf net ⟨cur :: rest, v, d, f⟩ = ⟨rest, v ++ [cur], d, f ++ [cur]⟩) := by
  constructor
  · intro http gunzip parseXml url
    unfold fetch_and_parse effectiveContent
    cases hh : http url with
    | none => simp
    | some r =>
      dsimp only
      constructor
      · intro hnone
        refine Or.inr ⟨r, rfl, ?_⟩
        by_cases h1 : r.status_code ≠ 200
        · exact Or.inl h1
        · rw [if_neg h1] at hnone
          by_cases hz : (endsWithStr url ".gz" ||
              r.contentType = some "application/x-gzip") = true
          · rw [if_pos hz] at hnone
            cases hg : gunzip r.content with
            | none => exact Or.inr (Or.inl ⟨hz, rfl⟩)
            | some c =>
              rw [hg] at hnone
              exact Or.inr (Or.inr ⟨c, by rw [if_pos hz], hnone⟩)
          · rw [if_neg hz] at hnone
            exact Or.inr (Or.inr ⟨r.content, by rw [if_neg hz], hnone⟩)
      · intro hr
        rcases hr with h | ⟨r2, hr2, hcase⟩
        · exact absurd h (by simp)
        · obtain rfl : r2 = r := by injection hr2 with he; exact he.symm
          rcases hcase with h1 | ⟨hz, hg⟩ | ⟨b, hb, hp⟩
          · rw [if_pos h1]
          · by_cases h1 : r2.status_code ≠ 200
            · rw [if_pos h1]
            · rw [if_neg h1, if_pos hz, hg]
          · by_cases h1 : r2.status_code ≠ 200
            · rw [if_pos h1]
            · rw [if_neg h1]
              by_cases hz : (endsWithStr url ".gz" ||
                  r2.contentType = some "application/x-gzip") = true
              · rw [if_pos hz] at hb ⊢
                rw [hb]
                exact hp
              · rw [if_neg hz] at hb ⊢
                injection hb with he2
                rw [he2]
                exact hp
  · intro cf net cur rest v d f hv hn
    exact crawlStep_none cf net cur rest v d f hv hn

/-- Witness for C5: a failing fetch on a state with one queued URL and one
already-collected domain: the URL is marked visited and logged, the domain
set survives. -/
theorem fetch_failure_modes_witness :
    crawlStep crawlChildDeep (fun _ => none)
        ⟨["https://a.com/sitemap.xml"], [], ["d0.example"], []⟩ =
      ⟨[], ["https://a.com/sitemap.xml"], ["d0.example"], ["https://a.com/sitemap.xml"]⟩ :=
  fetch_failure_modes.2 crawlChildDeep (fun _ => none) "https://a.com/sitemap.xml"
    [] [] ["d0.example"] [] (List.not_mem_nil _) rfl

/-- C6 (counterexample): the claim applies the two suffix tests to the
original string, but the code lowercases the URL before all three tests: on
an uppercase `.XML` URL the code answers true while the claim's condition
is false. -/
theorem is_sitemap_url_counterexample :
    is_sitemap_url "https://a.com/FEED.XML" = true ∧
    is_sitemap_url_claim "https://a.com/FEED.XML" = false ∧
    is_sitemap_url "https://a.com/FEED.XML" ≠
      is_sitemap_url_claim "https://a.com/FEED.XML" := by
  refine ⟨by rfl, by rfl, ?_⟩
  intro h
  have h1 : is_sitemap_url "https://a.com/FEED.XML" = true := by rfl
  have h2 : is_sitemap_url_claim "https://a.com/FEED.XML" = false := by rfl
  rw [h1, h2] at h
  exact Bool.noConfusion h

/-- C6 (amended): `is_sitemap_url` returns true exactly when the lowercased
URL ends with `.xml`, or the lowercased URL ends with `.xml.gz`, or the
lowercased URL contains the substring `sitemap`. -/
theorem is_sitemap_url_spec (url : String) :
    is_sitemap_url url = true ↔
      (endsWithStr (lowerStr url) ".xml" = true ∨
       endsWithStr (lowerStr url) ".xml.gz" = true ∨
       containsStr (lowerStr url) "sitemap" = true) := by
  simp [is_sitemap_url, Bool.or_eq_true, or_assoc]

/-- C10: the entry URL gets `https://` prefixed exactly when the input does
not start with the four characters `http`; any input beginning with `http`,
including the scheme-less bare domain `httpbin.org`, is passed to seed
resolution unchanged. -/
theorem input_normalization :
    (∀ s, normalizeInput s = "https://" ++ s ↔ startsWithStr s "http" = false) ∧
    (∀ s, startsWithStr s "http" = true → normalizeInput s = s) ∧
    startsWithStr "httpbin.org" "http" = true ∧
    normalizeInput "httpbin.org" = "httpbin.org" ∧
    normalizeInput "wiswindows.com" = "https://wiswindows.com" := by
  refine ⟨?_, ?_, by rfl, by rfl, by rfl⟩
  · intro s
    constructor
    · intro h
      cases hb : startsWithStr s "http" with
      | false => rfl
      | true =>
        unfold normalizeInput at h
        rw [hb] at h
        simp only [Bool.not_true, Bool.false_eq_true, if_false] at h
        have hlen := congrArg String.length h
        rw [String.length_append] at hlen
        have h8 : ("https://" : String).length = 8 := by rfl
        rw [h8] at hlen
        omega
    · intro h
      unfold normalizeInput
      rw [h]
      rfl
  · intro s h
    unfold normalizeInput
    rw [h]
    rfl

/-- Witness for C10: the pass-through conjunct applied to a bare host that
happens to start with `http`. -/
theorem input_normalization_witness :
    normalizeInput "httpx.example" = "httpx.example" :=
  input_normalization.2.1 "httpx.example" (by rfl)

theorem findLoc_spec_aux : ∀ (l : List XmlElem),
    (match findLoc l with
     | none => none
     | some s => if s = "" then none else some s) = findLocSpec l := by
  intro l
  induction l with
  | nil => rfl
  | cons sub rest ih =>
    simp only [findLoc, findLocSpec, List.find?_cons]
    by_cases hp : localName sub.tag = "loc"
    · rw [if_pos hp]
      simp only [hp, decide_True, Option.some_bind]
      cases ht : sub.text with
      | none => rfl
      | some t =>
        dsimp only [Option.some_bind]
        by_cases h0 : t = ""
        · subst h0; rfl
        · rw [if_neg h0]
    · rw [if_neg hp]
      simp only [hp, decide_False]
      exact ih.trans rfl

/-- C9: tag extraction is namespace-agnostic — `localName` yields `loc` both
for the namespaced tag and the bare tag — and an entry's loc resolution
equals the specification: the trimmed text of the first immediate child
whose local name is `loc`, absent when no such child exists or when that
text is empty or whitespace-only; two concrete entries illustrate trimming
and the whitespace-only skip. -/
theorem tag_extraction_spec :
    localName "\x7bhttp://www.sitemaps.org/schemas/sitemap/0.9\x7dloc" = "loc" ∧
    localName "loc" = "loc" ∧
    (∀ child : XmlElem, truthyLoc child = findLocSpec child.children) ∧
    truthyLoc ⟨"url", none, [⟨nsTag "loc", some "  https://a.com/x  ", []⟩]⟩ =
      some "https://a.com/x" ∧
    truthyLoc ⟨"url", none, [⟨nsTag "loc", some "   ", []⟩]⟩ = none := by
  refine ⟨by rfl, by rfl, ?_, by rfl, by rfl⟩
  intro child
  unfold truthyLoc
  exact findLoc_spec_aux child.children

theorem foldl_append_filterMap (f : String → Option String) :
    ∀ (l : List String) (init : List String),
      l.foldl (fun sitemaps line =>
        match f line with
        | some u => sitemaps ++ [u]
        | none => sitemaps) init = init ++ l.filterMap f := by
  intro l
  induction l with
  | nil => intro init; simp
  | cons x xs ih =>
    intro init
    rw [List.foldl_cons]
    cases hx : f x with
    | none =>
      rw [List.filterMap_cons, hx]
      exact ih init
    | some u =>
      rw [List.filterMap_cons, hx, ih (init ++ [u])]
      simp

/-- C8: seed resolution scans the robots.txt body line by line in file
order, collecting the trimmed URL after the first colon of every line whose
lowercased stripped form starts with `sitemap:`; a failed fetch or a
non-200 status yields zero directives; and whenever there are zero
directives the seeds fall back to the single URL obtained by URL-joining
the base URL with `sitemap.xml`, which for a bare origin is the
conventional `baseUrl/sitemap.xml`. -/
theorem seed_resolution_spec :
    (∀ http u r, http (urljoin u "/robots.txt") = some r → r.status_code = 200 →
       get_sitemap_from_robots http u = (splitlinesStr r.text).filterMap sitemapDirective) ∧
    (∀ http u, http (urljoin u "/robots.txt") = none →
       get_sitemap_from_robots http u = []) ∧
    (∀ http u r, http (urljoin u "/robots.txt") = some r → r.status_code ≠ 200 →
       get_sitemap_from_robots http u = []) ∧
    (∀ http u, get_sitemap_from_robots http u = [] →
       initialSitemaps http u = [urljoin u "sitemap.xml"]) ∧
    (∀ http u, get_sitemap_from_robots http u ≠ [] →
       initialSitemaps http u = get_sitemap_from_robots http u) ∧
    urljoin "https://a.com" "sitemap.xml" = "https://a.com/sitemap.xml" ∧
    urljoin "https://a.com/" "sitemap.xml" = "https://a.com/sitemap.xml" ∧
    get_sitemap_from_robots robotsScenarioNet "https://a.com" =
      ["https://a.com/s1.xml", "https://a.com/s2.xml"] ∧
    initialSitemaps (fun _ => none) "https://a.com" = ["https://a.com/sitemap.xml"] := by
  refine ⟨?_, ?_, ?_, ?_, ?_, by rfl, by rfl, by rfl, by rfl⟩
  · intro http u r h h200
    simp only [get_sitemap_from_robots, h]
    rw [if_pos h200]
    exact (foldl_append_filterMap sitemapDirective (splitlinesStr r.text) []).trans
      (List.nil_append _)
  · intro http u h
    simp only [get_sitemap_from_robots, h]
  · intro http u r h h200
    simp only [get_sitemap_from_robots, h]
    rw [if_neg h200]
  · intro http u h
    simp only [initialSitemaps, h]
    rfl
  · intro http u h
    simp only [initialSitemaps]
    rw [if_neg h]

/-- Witness for C8: a robots fetch that fails outright yields zero
directives. -/
theorem seed_resolution_spec_witness :
    get_sitemap_from_robots (fun _ => none) "https://a.com" = [] :=
  seed_resolution_spec.2.1 (fun _ => none) "https://a.com" rfl

theorem clean_keep (c : Char) (h : 32 < c.toNat) :
    ((c ≠ '\t' && c ≠ '\r' && c ≠ '\n') : Bool) = true := by
  have h1 : ¬ c = '\t' := by intro he; subst he; exact absurd h (by decide)
  have h2 : ¬ c = '\r' := by intro he; subst he; exact absurd h (by decide)
  have h3 : ¬ c = '\n' := by intro he; subst he; exact absurd h (by decide)
  simp [h1, h2, h3]

theorem splitFirst_append_of_not_mem (c : Char) :
    ∀ (a : List Char), c ∉ a → ∀ b, splitFirst c (a ++ c :: b) = some (a, b) := by
  intro a
  induction a with
  | nil =>
    intro _ b
    simp [splitFirst]
  | cons d ds ih =>
    intro h b
    have hdc : ¬ d = c := fun he => h (he ▸ List.mem_cons_self d ds)
    rw [List.cons_append]
    simp only [splitFirst, if_neg hdc]
    rw [ih (fun hm => h (List.mem_cons_of_mem _ hm)) b]

theorem takeUntil_append_of_clean (stops : List Char) :
    ∀ (a : List Char), (∀ x ∈ a, x ∉ stops) → ∀ b,
      takeUntil stops (a ++ b) =
        (a ++ (takeUntil stops b).1, (takeUntil stops b).2) := by
  intro a
  induction a with
  | nil => intro _ b; simp
  | cons d ds ih =>
    intro h b
    have hd : d ∉ stops := h d (List.mem_cons_self d ds)
    rw [List.cons_append]
    simp only [takeUntil, if_neg hd]
    rw [ih (fun x hx => h x (List.mem_cons_of_mem _ hx)) b]
    rfl

/-- Parsing a URL assembled from the fixed `https` scheme, a clean host, a
clean absolute-or-empty path, a clean query and an arbitrary fragment
recovers exactly those components; in particular the parsed path never
depends on the query or the fragment. -/
theorem urlparse_build (host path q f : List Char)
    (hhost : ∀ c ∈ host, 32 < c.toNat ∧ c ∉ (['/', '?', '#'] : List Char))
    (hpath : ∀ c ∈ path, 32 < c.toNat ∧ ¬ c = '?' ∧ ¬ c = '#' ∧ ¬ c = ';')
    (hpath0 : path = [] ∨ ∃ p2, path = '/' :: p2)
    (hq : ∀ c ∈ q, 32 < c.toNat ∧ ¬ c = '#') :
    urlparse (String.mk ("https://".toList ++ host ++ path ++ '?' :: q ++ '#' :: f)) =
      ⟨"https", String.mk host, String.mk path, "", String.mk q,
       String.mk (f.filter (fun c => c ≠ '\t' && c ≠ '\r' && c ≠ '\n'))⟩ := by
  have hfil_host : host.filter (fun c => (c ≠ '\t' && c ≠ '\r' && c ≠ '\n' : Bool)) = host :=
    List.filter_eq_self.mpr (fun c hc => clean_keep c (hhost c hc).1)
  have hfil_path : path.filter (fun c => (c ≠ '\t' && c ≠ '\r' && c ≠ '\n' : Bool)) = path :=
    List.filter_eq_self.mpr (fun c hc => clean_keep c (hpath c hc).1)
  have hfil_q : q.filter (fun c => (c ≠ '\t' && c ≠ '\r' && c ≠ '\n' : Bool)) = q :=
    List.filter_eq_self.mpr (fun c hc => clean_keep c (hq c hc).1)
  have hsan : sanitizeUrl ("https://".toList ++ host ++ path ++ '?' :: q ++ '#' :: f) =
      "https://".toList ++ host ++ path ++ '?' :: q ++
        '#' :: f.filter (fun c => c ≠ '\t' && c ≠ '\r' && c ≠ '\n') := by
    unfold sanitizeUrl
    rw [show "https://".toList ++ host ++ path ++ '?' :: q ++ '#' :: f =
      'h' :: ("ttps://".toList ++ host ++ path ++ '?' :: q ++ '#' :: f) from rfl]
    rw [List.dropWhile_cons, if_neg (by decide)]
    rw [show 'h' :: ("ttps://".toList ++ host ++ path ++ '?' :: q ++ '#' :: f) =
      "https://".toList ++ (host ++ (path ++ ('?' :: q ++ ('#' :: f)))) from by
        simp [List.append_assoc]]
    rw [List.filter_append, List.filter_append, List.filter_append]
    rw [hfil_host, hfil_path]
    rw [show List.filter (fun c => (c ≠ '\t' && c ≠ '\r' && c ≠ '\n' : Bool)) ('?' :: q ++ '#' :: f) =
      '?' :: (q.filter (fun c => (c ≠ '\t' && c ≠ '\r' && c ≠ '\n' : Bool)) ++
        '#' :: f.filter (fun c => (c ≠ '\t' && c ≠ '\r' && c ≠ '\n' : Bool))) from by
        rw [List.cons_append, List.filter_cons, List.filter_append, List.filter_cons]
        simp]
    rw [hfil_q]
    simp [List.append_assoc]
  have htu : takeUntil ['/', '?', '#']
      (path ++ '?' :: q ++ '#' :: f.filter (fun c => c ≠ '\t' && c ≠ '\r' && c ≠ '\n')) =
      ([], path ++ '?' :: q ++ '#' :: f.filter (fun c => c ≠ '\t' && c ≠ '\r' && c ≠ '\n')) := by
    rcases hpath0 with rfl | ⟨p2, rfl⟩
    · simp [takeUntil]
    · simp [takeUntil]
  have hsharp : ('#' : Char) ∉ path ++ '?' :: q := by
    intro hm
    rcases List.mem_append.mp hm with hm | hm
    · exact (hpath _ hm).2.2.1 rfl
    · rcases List.mem_cons.mp hm with hm | hm
      · exact absurd hm.symm (by decide)
      · exact (hq _ hm).2 rfl
  have hquest : ('?' : Char) ∉ path := fun hm => (hpath _ hm).2.1 rfl
  have hsplit : urlsplitD ""
      (String.mk ("https://".toList ++ host ++ path ++ '?' :: q ++ '#' :: f)) =
      ⟨"https", String.mk host, String.mk path, "", String.mk q,
       String.mk (f.filter (fun c => c ≠ '\t' && c ≠ '\r' && c ≠ '\n'))⟩ := by
    unfold urlsplitD
    rw [show (String.mk ("https://".toList ++ host ++ path ++ '?' :: q ++ '#' :: f)).toList =
      "https://".toList ++ host ++ path ++ '?' :: q ++ '#' :: f from rfl]
    rw [hsan]
    rw [show "https://".toList ++ host ++ path ++ '?' :: q ++
        '#' :: f.filter (fun c => c ≠ '\t' && c ≠ '\r' && c ≠ '\n') =
      ['h', 't', 't', 'p', 's'] ++ ':' :: ('/' :: '/' ::
        (host ++ (path ++ '?' :: q ++
          '#' :: f.filter (fun c => c ≠ '\t' && c ≠ '\r' && c ≠ '\n')))) from by
        simp [List.append_assoc]]
    dsimp only
    rw [splitFirst_append_of_not_mem ':' ['h', 't', 't', 'p', 's'] (by decide)]
    dsimp only
    rw [if_pos (by decide)]
    dsimp only
    have hsw : startsWithL ('/' :: '/' ::
      (host ++ (path ++ '?' :: q ++
        '#' :: f.filter (fun c => c ≠ '\t' && c ≠ '\r' && c ≠ '\n')))) ['/', '/'] = true := by
      simp [startsWithL]
    rw [if_pos hsw]
    rw [show List.drop 2 ('/' :: '/' ::
      (host ++ (path ++ '?' :: q ++
        '#' :: f.filter (fun c => c ≠ '\t' && c ≠ '\r' && c ≠ '\n')))) =
      host ++ (path ++ '?' :: q ++
        '#' :: f.filter (fun c => c ≠ '\t' && c ≠ '\r' && c ≠ '\n')) from rfl]
    rw [takeUntil_append_of_clean ['/', '?', '#'] host (fun x hx => (hhost x hx).2)]
    rw [htu]
    dsimp only
    rw [show path ++ '?' :: q ++
        '#' :: f.filter (fun c => c ≠ '\t' && c ≠ '\r' && c ≠ '\n') =
      (path ++ '?' :: q) ++
        '#' :: f.filter (fun c => c ≠ '\t' && c ≠ '\r' && c ≠ '\n') from by
        simp [List.append_assoc]]
    rw [splitFirst_append_of_not_mem '#' (path ++ '?' :: q) hsharp]
    dsimp only
    rw [splitFirst_append_of_not_mem '?' path hquest]
    dsimp only
    rw [List.append_nil]
    rfl
  unfold urlparse urlparseD
  rw [hsplit]
  dsimp only
  rw [if_neg (show ¬ (';' : Char) ∈ (String.mk path).toList from
    fun hm => (hpath _ hm).2.2.2 rfl)]

/-- C7: `is_homepage` returns true exactly when the parsed URL's path
component is empty or exactly a single slash; the four named examples
behave as stated; query strings and fragments never change the verdict,
shown on concrete pairs and on every URL assembled from the `https`
scheme, a clean host, a clean absolute-or-empty path, a clean query and an
arbitrary fragment: the verdict coincides with the path test alone. -/
theorem is_homepage_spec :
    (∀ url, is_homepage url = true ↔
       ((urlparse url).path = "" ∨ (urlparse url).path = "/")) ∧
    is_homepage "https://a.com" = true ∧
    is_homepage "https://a.com/" = true ∧
    is_homepage "https://a.com/page" = false ∧
    is_homepage "https://a.com/sitemap.xml" = false ∧
    is_homepage "https://a.com/?q=1#frag" = true ∧
    is_homepage "https://a.com/page?q=1#frag" = false ∧
    (∀ host path q f,
      (∀ c ∈ host, 32 < c.toNat ∧ c ∉ (['/', '?', '#'] : List Char)) →
      (∀ c ∈ path, 32 < c.toNat ∧ ¬ c = '?' ∧ ¬ c = '#' ∧ ¬ c = ';') →
      (path = [] ∨ ∃ p2, path = '/' :: p2) →
      (∀ c ∈ q, 32 < c.toNat ∧ ¬ c = '#') →
      (is_homepage
          (String.mk ("https://".toList ++ host ++ path ++ '?' :: q ++ '#' :: f)) = true ↔
        (path = [] ∨ path = ['/']))) := by
  refine ⟨?_, by rfl, by rfl, by rfl, by rfl, by rfl, by rfl, ?_⟩
  · intro url
    simp [is_homepage, Bool.or_eq_true, decide_eq_true_eq]
  · intro host path q f hhost hpath hpath0 hq
    have hb := urlparse_build host path q f hhost hpath hpath0 hq
    unfold is_homepage
    rw [hb]
    dsimp only
    simp only [Bool.or_eq_true, decide_eq_true_eq]
    constructor
    · rintro (h | h)
      · exact Or.inl (congrArg String.data h)
      · exact Or.inr (congrArg String.data h)
    · rintro (rfl | rfl)
      · exact Or.inl rfl
      · exact Or.inr rfl

/-- Witness for C7: the assembled-URL conjunct applied to host `a.com`,
path `/p`, query `x` and fragment `y`. -/
theorem is_homepage_spec_witness :
    is_homepage
        (String.mk ("https://".toList ++ "a.com".toList ++ ['/', 'p'] ++
          '?' :: ['x'] ++ '#' :: ['y'])) = true ↔
      ((['/', 'p'] : List Char) = [] ∨ (['/', 'p'] : List Char) = ['/']) :=
  is_homepage_spec.2.2.2.2.2.2.2 "a.com".toList ['/', 'p'] ['x'] ['y']
    (by decide) (by decide) (Or.inr ⟨['p'], rfl⟩) (by decide)

end SitemapExtractor
